import Mathlib

/-!
Verification development for the content-processing pipeline of a static-site
generator (content scanner, front-matter metadata defaulting, markdown link
rewriting, template-variable substitution, content cache, directory queries
and sidebar/tree building).

The JavaScript source is shallowly embedded here.  Strings are modelled as
lists of characters (`Str`); JavaScript values appearing in front-matter
metadata are modelled by `JsonVal`; JS objects are modelled as association
lists in insertion order, with JS property-enumeration order (array-index
keys first, ascending) modelled explicitly where the code enumerates keys.
External collaborators (the markdown engine, the front-matter parser, the
site configuration and the clock) are parameters: the scanner takes the
already-split front matter and body of each file, an abstract `render`
function standing for the markdown engine, and an abstract variable map
standing for the site-configuration/date variables.
-/

/-- Character-list model of JavaScript strings. -/
abbrev Str := List Char

/-- Conversion from Lean string literals to the character-list model. -/
def str (s : String) : Str := s.data

/-- isPre p s is true when p is a prefix of s (character-wise). -/
def isPre : Str → Str → Bool
  | [], _ => true
  | _ :: _, [] => false
  | p :: ps, c :: cs => p = c && isPre ps cs

/-- hasSub pat s is true when pat occurs as a contiguous substring of s. -/
def hasSub (pat : Str) : Str → Bool
  | [] => isPre pat []
  | c :: cs => isPre pat (c :: cs) || hasSub pat cs

/-- replaceFirst pat repl s replaces the first occurrence of pat in s by repl,
    modelling the JavaScript String.replace with a string pattern. -/
def replaceFirst (pat repl : Str) : Str → Str
  | [] => if isPre pat [] then repl else []
  | c :: cs =>
    if isPre pat (c :: cs) then repl ++ (c :: cs).drop pat.length
    else c :: replaceFirst pat repl cs

/-- splitOnChar sep s splits s at every occurrence of sep, modelling the
    JavaScript String.split with a single-character separator. -/
def splitOnChar (sep : Char) : Str → List Str
  | [] => [[]]
  | c :: cs =>
    match splitOnChar sep cs with
    | [] => if c = sep then [[], []] else [[c]]
    | s :: ss => if c = sep then [] :: s :: ss else (c :: s) :: ss

/-- joinWith sep parts interleaves sep between the parts, modelling the
    JavaScript Array.join. -/
def joinWith (sep : Str) : List Str → Str
  | [] => []
  | [s] => s
  | s :: rest => s ++ sep ++ joinWith sep rest

/-- Model of the JavaScript word.charAt(0).toUpperCase() + word.slice(1). -/
def capitalize : Str → Str
  | [] => []
  | c :: rest => c.toUpper :: rest

/-- Model of the JavaScript String.trim (whitespace stripped at both ends). -/
def trimStr (s : Str) : Str :=
  ((s.dropWhile Char.isWhitespace).reverse.dropWhile Char.isWhitespace).reverse

/-- Model of the JavaScript s.replace of all backslashes by forward slashes. -/
def replaceBackslashes (s : Str) : Str :=
  s.map (fun c => if c = '\\' then '/' else c)

/-- Model of the JavaScript s.replace of a single trailing slash by nothing. -/
def stripTrailingSlash (s : Str) : Str :=
  if isPre (str "/") s.reverse then s.dropLast else s

/-- endsWithStr pat s models the JavaScript String.endsWith. -/
def endsWithStr (pat s : Str) : Bool := isPre pat.reverse s.reverse

/-- Lookup in an association list with Str keys (first match wins). -/
def lookupStr {α : Type} (m : List (Str × α)) (k : Str) : Option α :=
  match m with
  | [] => none
  | p :: rest => if p.1 = k then some p.2 else lookupStr rest k

/-- JavaScript values that can appear as front-matter metadata fields. -/
inductive JsonVal : Type where
  | str (s : Str)
  | num (n : Int)
  | bool (b : Bool)
  | null
  | undefined
deriving DecidableEq

/-- JavaScript truthiness of a JsonVal. -/
def truthy : JsonVal → Bool
  | .str s => s ≠ []
  | .num n => n ≠ 0
  | .bool b => b
  | .null => false
  | .undefined => false

/-- Model of the JavaScript expression (x || d) where x is a possibly absent
    object property and d a default. -/
def jsOr (o : Option JsonVal) (d : JsonVal) : JsonVal :=
  match o with
  | some v => if truthy v then v else d
  | none => d

/-- Property lookup on a JS object modelled as an association list. -/
def objGet (m : List (Str × JsonVal)) (k : Str) : Option JsonVal :=
  lookupStr m k

/-- Property assignment on a JS object: overwriting keeps the original
    insertion position, a fresh key is appended at the end. -/
def objSet (m : List (Str × JsonVal)) (k : Str) (v : JsonVal) :
    List (Str × JsonVal) :=
  if m.any (fun p => p.1 = k) then
    m.map (fun p => if p.1 = k then (p.1, v) else p)
  else m ++ [(k, v)]

/-- Model of the JS object spread: spreading src into dst assigns every
    property of src onto dst in order. -/
def objSpread (dst src : List (Str × JsonVal)) : List (Str × JsonVal) :=
  src.foldl (fun acc p => objSet acc p.1 p.2) dst

/-- Numeric coercion used when the sidebar sort comparator subtracts two
    order values.  The claims only exercise numeric order values; for the
    values JavaScript would coerce to NaN (which would make the comparator
    inconsistent and the sort order unspecified) we fix the convention 0. -/
def jsNum : JsonVal → Int
  | .num n => n
  | .bool b => if b then 1 else 0
  | .null => 0
  | .undefined => 0
  | .str _ => 0

/-- Embedding of formatTitle: splits the slug on dashes, capitalizes each
    word and joins with spaces. -/
def formatTitle (slug : Str) : Str :=
  joinWith (str " ") ((splitOnChar '-' slug).map capitalize)

example : formatTitle (str "my-first-post") = str "My First Post" := by decide

theorem length_dropWhile_le' {α : Type} (p : α → Bool) (l : List α) :
    (l.dropWhile p).length ≤ l.length := by
  induction l with
  | nil => simp [List.dropWhile]
  | cons c cs ih =>
    rw [List.dropWhile]
    by_cases h : p c
    · simp only [h]
      exact Nat.le_trans ih (Nat.le_succ _)
    · simp only [Bool.not_eq_true] at h
      simp [h]

/-- Embedding of the body of processTemplateVariables: a single left-to-right
    pass replacing every occurrence of a double-braced placeholder (two open
    braces, one or more non-close-brace characters, two close braces, as the
    source regex prescribes) whose trimmed name is bound in the variable map;
    unbound placeholders are left verbatim and scanning resumes after them.
    The pass is driven by a fuel argument so that the recursion is structural
    (and hence computable by the kernel); fuel equal to the input length is
    always sufficient, since every step consumes at least one character. -/
def substAuxF (vars : List (Str × Str)) : Nat → Str → Str
  | _, [] => []
  | 0, l => l
  | fuel + 1, c :: cs =>
    if c = '{' ∧ cs.head? = some '{' ∧ cs.tail.takeWhile (fun d => d ≠ '}') ≠ []
        ∧ (cs.tail.dropWhile (fun d => d ≠ '}')).take 2 = str "\x7d\x7d" then
      match lookupStr vars (trimStr (cs.tail.takeWhile (fun d => d ≠ '}'))) with
      | some v =>
        v ++ substAuxF vars fuel ((cs.tail.dropWhile (fun d => d ≠ '}')).drop 2)
      | none =>
        str "\x7b\x7b" ++ cs.tail.takeWhile (fun d => d ≠ '}') ++ str "\x7d\x7d"
          ++ substAuxF vars fuel ((cs.tail.dropWhile (fun d => d ≠ '}')).drop 2)
    else c :: substAuxF vars fuel cs

/-- Embedding of processTemplateVariables.  The variable map (built in the
    source from the site configuration and the current date, both external
    inputs) is passed as a parameter. -/
def processTemplateVariables (vars : List (Str × Str)) (content : Str) : Str :=
  substAuxF vars content.length content

example :
    processTemplateVariables [(str "site.name", str "Acme")]
      (str "a \x7b\x7bsite.name\x7d\x7d b") = str "a Acme b" := by decide

/-- Predicate for the characters the JavaScript regex dot does not match. -/
def jsDotExcluded (c : Char) : Bool :=
  c = '\n' || c = '\r' || c = Char.ofNat 0x2028 || c = Char.ofNat 0x2029

/-- Lazy-body search of the heading regex: from the current position, match
    the earliest close tag of the h1 element, consuming only characters the
    regex dot accepts.  Returns the consumed body and the text after the
    close tag. -/
def findBody : Str → Option (Str × Str)
  | [] => none
  | c :: cs =>
    if isPre (str "</h1>") (c :: cs) then some ([], (c :: cs).drop 5)
    else if jsDotExcluded c then none
    else
      match findBody cs with
      | some (b, r) => some (c :: b, r)
      | none => none

/-- Match of the h1 regex anchored at the current position: the literal open
    angle h 1, then any run of non-close-angle characters, a close angle, and
    a lazily matched body up to the first close tag.  Returns the text after
    the whole match. -/
def matchH1At (s : Str) : Option Str :=
  if isPre (str "<h1") s then
    let after := (s.drop 3).dropWhile (fun d => d ≠ '>')
    if after = [] then none
    else (findBody after.tail).map (fun p => p.2)
  else none

/-- Left-to-right scan of removeFirstH1: the first position where the regex
    matches has its match removed; everything else is kept. -/
def removeFirstH1Aux : Str → Str
  | [] => []
  | c :: cs =>
    match matchH1At (c :: cs) with
    | some after => after
    | none => c :: removeFirstH1Aux cs

/-- Embedding of removeFirstH1. -/
def removeFirstH1 (html : Str) : Str := removeFirstH1Aux html

example :
    removeFirstH1 (str "<h1 id=t>Hello</h1><p>x</p><h1>b</h1>")
      = str "<p>x</p><h1>b</h1>" := by decide

/-- One step of Node's posix path normalization over the already-split
    segments: a dot-dot segment pops the last kept segment, or is kept itself
    when nothing can be popped and the path is relative. -/
def normStep (allowAboveRoot : Bool) (acc : List Str) (seg : Str) : List Str :=
  if seg = str ".." then
    match acc with
    | a :: rest => if a ≠ str ".." then rest
                   else if allowAboveRoot then seg :: acc else acc
    | [] => if allowAboveRoot then [seg] else []
  else seg :: acc

/-- Embedding of Node's path.posix.normalize. -/
def normalizePath (p : Str) : Str :=
  if p = [] then str "." else
  let isAbs := isPre (str "/") p
  let trailing := isPre (str "/") p.reverse
  let segs := (splitOnChar '/' p).filter (fun s => s ≠ [] ∧ s ≠ str ".")
  let stack := (segs.foldl (normStep (!isAbs)) []).reverse
  let body := joinWith (str "/") stack
  if body = [] then
    if isAbs then str "/" else if trailing then str "./" else str "."
  else
    let body2 := if trailing then body ++ str "/" else body
    if isAbs then str "/" ++ body2 else body2

/-- Embedding of Node's path.posix.join: non-empty segments joined by a
    slash, then normalized. -/
def jsPathJoin (segs : List Str) : Str :=
  let joined := joinWith (str "/") (segs.filter (fun s => s ≠ []))
  if joined = [] then str "." else normalizePath joined

example : jsPathJoin [str "/", str "blog", str "./other"] = str "/blog/other" := by decide
example : jsPathJoin [str "/", str "blog", str "../docs/setup"] = str "/docs/setup" := by decide
example : jsPathJoin [str "/", str "", str "./x"] = str "/x" := by decide
example : jsPathJoin [str "docs", str "setup.md"] = str "docs/setup.md" := by decide
example : jsPathJoin [str "", str "a"] = str "a" := by decide

/-- Tail of the URI-scheme test: letters, digits, plus, dot or dash until a
    colon is reached. -/
def protoRest : Str → Bool
  | [] => false
  | c :: rest =>
    if c = ':' then true
    else if c.isAlpha || c.isDigit || c = '+' || c = '.' || c = '-' then protoRest rest
    else false

/-- Embedding of the protocol test regex of the link transformer: a letter
    followed by letters, digits, plus, dot or dash, then a colon. -/
def hasProtocol : Str → Bool
  | [] => false
  | c :: rest => c.isAlpha && protoRest rest

example : hasProtocol (str "https://example.com") = true := by decide
example : hasProtocol (str "mailto:a@b.c") = true := by decide
example : hasProtocol (str "./other.md") = false := by decide

/-- Embedding of the href rewriting performed by the link renderer installed
    by createLinkTransformer, for a file living in currentDirectory. -/
def transformHref (currentDirectory href : Str) : Str :=
  if href ≠ [] ∧ hasProtocol href = false ∧ isPre (str "#") href = false then
    let href1 := if endsWithStr (str ".md") href then href.take (href.length - 3) else href
    if isPre (str "./") href1 || isPre (str "../") href1 then
      stripTrailingSlash
        (replaceBackslashes (jsPathJoin [str "/", currentDirectory, href1]))
    else if isPre (str "/") href1 = false then
      replaceBackslashes (jsPathJoin [str "/", currentDirectory, href1])
    else href1
  else href

/-- One content entry produced by the directory scanner. -/
structure ContentEntry : Type where
  slug : Str
  path : Str
  url : Str
  directory : Str
  mainDirectory : Str
  depth : Nat
  content : Str
  metadata : List (Str × JsonVal)
deriving DecidableEq

mutual
/-- Abstract file-system node: a markdown-candidate file is given by its
    name together with its already-parsed front matter (an external parser in
    the source) and raw body; a directory carries its listing in readdir
    order. -/
inductive FNode : Type where
  | file (name : Str) (fm : List (Str × JsonVal)) (body : Str)
  | dir (name : Str) (children : FList)
/-- Listing of file-system nodes in readdir order. -/
inductive FList : Type where
  | nil
  | cons (head : FNode) (tail : FList)
end

/-- Conversion of a plain list of nodes into a listing. -/
def toFList : List FNode → FList
  | [] => FList.nil
  | n :: rest => FList.cons n (toFList rest)

/-- Construction of one ContentEntry from a markdown file, mirroring the
    body of the file branch of scanDir: slug from the name with the first
    occurrence of dot-m-d removed, url from the relative path and slug,
    template processing of the body and of string-valued metadata, metadata
    defaulting followed by the spread of the processed front matter, link
    transformation and h1 stripping via the render parameter (standing for
    the external markdown engine configured with createLinkTransformer). -/
def mkContentEntry (render : Str → Str → Str) (vars : List (Str × Str))
    (relativePath name : Str) (fm : List (Str × JsonVal)) (body : Str) :
    ContentEntry :=
  let slug := replaceFirst (str ".md") [] name
  let url := if relativePath ≠ [] then
      replaceBackslashes (str "/" ++ relativePath ++ str "/" ++ slug)
    else str "/" ++ slug
  let processedMarkdownContent := processTemplateVariables vars body
  let processedMetadata := fm.map (fun p =>
    match p.2 with
    | JsonVal.str s => (p.1, JsonVal.str (processTemplateVariables vars s))
    | v => (p.1, v))
  let finalMetadata := objSpread
    [(str "title",
        jsOr (objGet processedMetadata (str "title"))
          (JsonVal.str (formatTitle slug))),
     (str "description",
        jsOr (objGet processedMetadata (str "description")) (JsonVal.str [])),
     (str "date", jsOr (objGet processedMetadata (str "date")) JsonVal.null),
     (str "author", jsOr (objGet processedMetadata (str "author")) JsonVal.null)]
    processedMetadata
  let directory := replaceBackslashes relativePath
  let html := removeFirstH1 (render directory processedMarkdownContent)
  let d0 := ((splitOnChar '/' directory).headD [])
  { slug := slug
    path := jsPathJoin [relativePath, name]
    url := url
    directory := directory
    mainDirectory := if d0 = [] then str "root" else d0
    depth := if directory = [] then 0 else (splitOnChar '/' directory).length
    content := html
    metadata := finalMetadata }

mutual
/-- Embedding of the recursive scanDir walk: directories are recursed into,
    markdown files produce entries, in listing order. -/
def scanDir (render : Str → Str → Str) (vars : List (Str × Str)) :
    FList → Str → List ContentEntry
  | FList.nil, _ => []
  | FList.cons n rest, relativePath =>
    scanNode render vars n relativePath ++ scanDir render vars rest relativePath
/-- Entries contributed by one node of the walk. -/
def scanNode (render : Str → Str → Str) (vars : List (Str × Str)) :
    FNode → Str → List ContentEntry
  | FNode.dir name children, relativePath =>
    scanDir render vars children (jsPathJoin [relativePath, name])
  | FNode.file name fm body, relativePath =>
    if endsWithStr (str ".md") name then
      [mkContentEntry render vars relativePath name fm body]
    else []
end

/-- Embedding of scanContentDirectory on an existing content root given by
    its listing (the missing-root case returns the empty sequence in the
    source and is not modelled further). -/
def scanContentDirectory (render : Str → Str → Str) (vars : List (Str × Str))
    (root : List FNode) : List ContentEntry :=
  scanDir render vars (toFList root) []

/-- Degenerate markdown renderer used for concrete evaluations: returns the
    processed markdown body unchanged. -/
def idRender : Str → Str → Str := fun _ body => body

/-- Embedding of getContentByDirectory over an explicit content sequence
    (the source obtains the sequence from getAllContent). -/
def getContentByDirectory (allContent : List ContentEntry) (directory : Str) :
    List ContentEntry :=
  if directory = str "root" then
    allContent.filter (fun e => e.directory = str "root")
  else
    allContent.filter (fun e =>
      e.directory = directory || isPre (directory ++ str "/") e.directory)

/-- State of the module-level content cache together with a counter of the
    file-system scans performed so far. -/
structure CacheState : Type where
  cachedContent : Option (List ContentEntry)
  scansPerformed : Nat
deriving DecidableEq

/-- Embedding of getAllContent: the scan parameter gives the result of the
    n-th file-system scan (so that on-disk changes between scans can be
    expressed), isDev the environment signal.  Returns the content together
    with the updated cache state. -/
def getAllContent (isDev : Bool) (scan : Nat → List ContentEntry)
    (s : CacheState) : List ContentEntry × CacheState :=
  match isDev, s.cachedContent with
  | false, some c => (c, s)
  | _, _ =>
    let s1 := if isDev then { s with cachedContent := none } else s
    let content := scan s1.scansPerformed
    let s2 := { s1 with scansPerformed := s1.scansPerformed + 1 }
    let s3 := if isDev = false then { s2 with cachedContent := some content }
      else s2
    (content, s3)

/-- Embedding of clearContentCache. -/
def clearContentCache (s : CacheState) : CacheState :=
  { s with cachedContent := none }

/-- Leaf payload pushed by getSidebarTree: title and url from the entry
    metadata, order from the metadata order field with JS-falsy fallback
    to 999. -/
structure SidebarItem : Type where
  title : JsonVal
  url : Str
  order : JsonVal
deriving DecidableEq

/-- Group value stored under a grouping key while building the sidebar. -/
structure SGroup : Type where
  title : Str
  items : List SidebarItem
deriving DecidableEq

/-- Node of the resulting sidebar: a top-level leaf item or a titled group
    of leaf items. -/
inductive SidebarNode : Type where
  | leaf (item : SidebarItem)
  | group (title : Str) (children : List SidebarItem)
deriving DecidableEq

/-- Property access entry.metadata.title style: absent keys read as the JS
    undefined. -/
def jsGet (m : List (Str × JsonVal)) (k : Str) : JsonVal :=
  (objGet m k).getD JsonVal.undefined

/-- Item pushed for one entry by getSidebarTree. -/
def sidebarItemOf (e : ContentEntry) : SidebarItem :=
  { title := jsGet e.metadata (str "title")
    url := e.url
    order := jsOr (objGet e.metadata (str "order")) (JsonVal.num 999) }

/-- Grouping key of an entry below the requested directory: the first
    segment of its relative path, or the root sentinel key when the entry
    lives directly in the directory. -/
def groupKeyOf (directory : Str) (e : ContentEntry) : Str :=
  let relativePath :=
    if e.directory = directory then []
    else replaceFirst (directory ++ str "/") [] e.directory
  let parts := (splitOnChar '/' relativePath).filter (fun s => s ≠ [])
  match parts with
  | [] => str "_root"
  | p :: _ => if p = [] then str "_root" else p

/-- Group title chosen when a grouping key is first encountered. -/
def groupTitleOf (directory k : Str) : Str :=
  if k = str "_root" then formatTitle directory else formatTitle k

/-- One step of the grouping loop of getSidebarTree: create the group on
    first encounter of the key, then push the entry's item at its end. -/
def addToGroups (directory : Str) (gs : List (Str × SGroup))
    (e : ContentEntry) : List (Str × SGroup) :=
  let k := groupKeyOf directory e
  let gs1 := if gs.any (fun p => p.1 = k) then gs
    else gs ++ [(k, { title := groupTitleOf directory k, items := [] })]
  gs1.map (fun p =>
    if p.1 = k then (p.1, { p.2 with items := p.2.items ++ [sidebarItemOf e] })
    else p)

/-- Stable insertion of x into a list sorted by an integer key: x goes
    before the first element with a strictly larger or equal key coming from
    later input positions. -/
def insertByKey {α : Type} (key : α → Int) (x : α) : List α → List α
  | [] => [x]
  | y :: ys => if key y < key x then y :: insertByKey key x ys else x :: y :: ys

/-- Stable sort by an integer key, modelling the ES2019-and-later stable
    Array.prototype.sort with the comparator subtracting the keys. -/
def sortByKey {α : Type} (key : α → Int) : List α → List α
  | [] => []
  | x :: xs => insertByKey key x (sortByKey key xs)

/-- Sorting of the items of one group by their order value. -/
def sortItems (items : List SidebarItem) : List SidebarItem :=
  sortByKey (fun it => jsNum it.order) items

/-- Numeric value of an all-digit key. -/
def digitsToNat (s : Str) : Nat :=
  s.foldl (fun n c => n * 10 + (c.toNat - 48)) 0

/-- Canonical decimal rendering of a natural number. -/
def natToStr (n : Nat) : Str :=
  (toString n).data

/-- Test for a JS array-index property key: an all-digit string that is the
    canonical decimal form of an integer below 2^32 - 1.  Such keys are
    enumerated first and in ascending numeric order by JS objects. -/
def isArrayIndexKey (s : Str) : Bool :=
  s ≠ [] && s.all Char.isDigit && natToStr (digitsToNat s) = s
    && digitsToNat s < 4294967295

/-- Integer sort key of an object property key (only used on array-index
    keys). -/
def keyIntOf (s : Str) : Int := (digitsToNat s : Int)

/-- Enumeration order of the own properties of a JS object held as an
    insertion-ordered association list: array-index keys first in ascending
    numeric order, then the remaining keys in insertion order. -/
def jsEntries {α : Type} (l : List (Str × α)) : List (Str × α) :=
  sortByKey (fun p => keyIntOf p.1) (l.filter (fun p => isArrayIndexKey p.1))
    ++ l.filter (fun p => !isArrayIndexKey p.1)

/-- Embedding of getSidebarTree over an explicit content sequence: filter
    the entries below the directory, group them by first path segment,
    sort each group's items by order, then emit the root group's items as
    leaves followed by the remaining groups in object-enumeration order
    (the source deletes the root group before enumerating). -/
def getSidebarTree (allContent : List ContentEntry) (directory : Str) :
    List SidebarNode :=
  let directoryContent := allContent.filter (fun e =>
    e.directory = directory || isPre (directory ++ str "/") e.directory)
  let groups := directoryContent.foldl (addToGroups directory) []
  let sorted : List (Str × SGroup) := groups.map (fun p =>
    (p.1, { title := p.2.title, items := sortItems p.2.items }))
  let rootItems :=
    match sorted.find? (fun p => p.1 = str "_root") with
    | some p => p.2.items
    | none => []
  let rest := jsEntries (sorted.filter (fun p => p.1 ≠ str "_root"))
  rootItems.map SidebarNode.leaf
    ++ rest.map (fun p => SidebarNode.group p.2.title p.2.items)

/-- Grouping keys in the order they are first encountered, skipping keys
    already seen. -/
def firstEncounterKeys : List Str → List Str → List Str
  | [], _ => []
  | k :: ks, seen =>
    if k ∈ seen then firstEncounterKeys ks seen
    else k :: firstEncounterKeys ks (seen ++ [k])

/-- Specification-side description of the sidebar for a directory, written
    from the claim with the group ordering amended to JS object enumeration
    order: entries directly in the directory come first as leaves, stably
    sorted ascending by their order value; group nodes follow, array-index
    subdirectory names first in ascending numeric order and the remaining
    subdirectory names in first-encountered order, each group carrying its
    entries stably sorted the same way. -/
def sidebarSpecJS (allContent : List ContentEntry) (directory : Str) :
    List SidebarNode :=
  let dc := allContent.filter (fun e =>
    e.directory = directory || isPre (directory ++ str "/") e.directory)
  let keys := (firstEncounterKeys (dc.map (groupKeyOf directory)) []).filter
    (fun k => k ≠ str "_root")
  let keysOrdered := sortByKey keyIntOf (keys.filter isArrayIndexKey)
    ++ keys.filter (fun k => !isArrayIndexKey k)
  (sortItems ((dc.filter (fun e => groupKeyOf directory e = str "_root")).map
      sidebarItemOf)).map SidebarNode.leaf
    ++ keysOrdered.map (fun k =>
      SidebarNode.group (formatTitle k)
        (sortItems ((dc.filter (fun e => groupKeyOf directory e = k)).map
          sidebarItemOf)))

/-- Sidebar description exactly as the claim states it: identical to the
    amended description except that ALL group nodes appear in
    first-encountered order. -/
def sidebarFirstEncounterModel (allContent : List ContentEntry)
    (directory : Str) : List SidebarNode :=
  let dc := allContent.filter (fun e =>
    e.directory = directory || isPre (directory ++ str "/") e.directory)
  let keys := (firstEncounterKeys (dc.map (groupKeyOf directory)) []).filter
    (fun k => k ≠ str "_root")
  (sortItems ((dc.filter (fun e => groupKeyOf directory e = str "_root")).map
      sidebarItemOf)).map SidebarNode.leaf
    ++ keys.map (fun k =>
      SidebarNode.group (formatTitle k)
        (sortItems ((dc.filter (fun e => groupKeyOf directory e = k)).map
          sidebarItemOf)))

/-- Concrete entry constructor for sample content sequences: only the
    fields inspected by the queries and the sidebar builder vary. -/
def sampleEntry (directory url : Str) (metadata : List (Str × JsonVal)) :
    ContentEntry :=
  { slug := [], path := [], url := url, directory := directory
    mainDirectory := [], depth := 0, content := [], metadata := metadata }

example :
    getSidebarTree
      [sampleEntry (str "docs") (str "/docs/a")
         [(str "title", JsonVal.str (str "A")), (str "order", JsonVal.num 2)],
       sampleEntry (str "docs/guide") (str "/docs/guide/b")
         [(str "title", JsonVal.str (str "B"))],
       sampleEntry (str "docs") (str "/docs/c")
         [(str "title", JsonVal.str (str "C")), (str "order", JsonVal.num 1)]]
      (str "docs")
    = [SidebarNode.leaf
         { title := JsonVal.str (str "C"), url := str "/docs/c",
           order := JsonVal.num 1 },
       SidebarNode.leaf
         { title := JsonVal.str (str "A"), url := str "/docs/a",
           order := JsonVal.num 2 },
       SidebarNode.group (str "Guide")
         [{ title := JsonVal.str (str "B"), url := str "/docs/guide/b",
            order := JsonVal.num 999 }]] := by decide

example :
    getSidebarTree
      [sampleEntry (str "docs/beta") (str "/docs/beta/a")
         [(str "title", JsonVal.str (str "A"))],
       sampleEntry (str "docs/2") (str "/docs/2/b")
         [(str "title", JsonVal.str (str "B"))]]
      (str "docs")
    = [SidebarNode.group (str "2")
         [{ title := JsonVal.str (str "B"), url := str "/docs/2/b",
            order := JsonVal.num 999 }],
       SidebarNode.group (str "Beta")
         [{ title := JsonVal.str (str "A"), url := str "/docs/beta/a",
            order := JsonVal.num 999 }]] := by decide

/-- C1: the claim that metadata.title is never empty fails on the code.  On
    a file whose front matter sets title to the empty string, the object
    spread of the processed front matter overrides the computed default
    title, so the entry's metadata.title is the empty string.  This theorem
    evaluates the scanner at that failing input. -/
theorem scan_title_empty_on_empty_frontmatter_title :
    (scanContentDirectory idRender []
        [FNode.file (str "my-post.md") [(str "title", JsonVal.str [])] []]).map
      (fun e => objGet e.metadata (str "title"))
    = [some (JsonVal.str [])] := by decide

/-- C2: the claim that getContentByDirectory applied to the root sentinel
    returns the entries directly in the content root fails on the code.  The
    scanner stores the empty string as the directory of a root-level file
    (only mainDirectory receives the root sentinel), while the query filters
    on directory equal to the literal root sentinel, so it returns the empty
    sequence.  This theorem evaluates the code at that failing input. -/
theorem getContentByDirectory_root_misses_root_entries :
    (scanContentDirectory idRender [] [FNode.file (str "hello.md") [] []]).map
        (fun e => (e.directory, e.mainDirectory))
      = [([], str "root")]
    ∧ getContentByDirectory
        (scanContentDirectory idRender [] [FNode.file (str "hello.md") [] []])
        (str "root") = [] := by decide

/-- C3: the link transformer examples of the claim, verified by evaluation:
    with current directory blog, a dot-slash markdown link, a parent
    markdown link and a bare name are resolved against the directory with
    the extension dropped, while a protocol link, a fragment link and the
    empty href are untouched, and an absolute path is untouched apart from
    dropping a trailing markdown extension. -/
theorem linkTransformer_cases :
    transformHref (str "blog") (str "./other.md") = str "/blog/other"
    ∧ transformHref (str "blog") (str "../docs/setup.md") = str "/docs/setup"
    ∧ transformHref (str "blog") (str "other-file") = str "/blog/other-file"
    ∧ transformHref (str "blog") (str "https://example.com")
        = str "https://example.com"
    ∧ transformHref (str "blog") (str "#section") = str "#section"
    ∧ transformHref (str "blog") [] = []
    ∧ transformHref (str "blog") (str "/already/absolute")
        = str "/already/absolute"
    ∧ transformHref (str "blog") (str "/already/absolute.md")
        = str "/already/absolute" := by decide

/-- C4: the claim that every scanned file gets a distinct url fails on the
    code.  The slug removes the first occurrence of the markdown suffix
    rather than the final extension, so two distinct files in the same
    directory can collide.  This theorem evaluates the scanner at such a
    failing input: both files receive the url slash-a-dot-m-d. -/
theorem scan_url_collision :
    (scanContentDirectory idRender []
        [FNode.file (str ".mda.md") [] [], FNode.file (str "a.md.md") [] []]).map
      (fun e => e.url)
    = [str "/a.md", str "/a.md"] := by decide

/-- C5: outside the root sentinel, getContentByDirectory selects exactly the
    entries whose directory equals the argument or extends it across a
    directory boundary (so blog/news is selected for blog while blog2 is
    not). -/
theorem getContentByDirectory_nonroot_mem (allContent : List ContentEntry)
    (d : Str) (hd : d ≠ str "root") (e : ContentEntry) :
    e ∈ getContentByDirectory allContent d
      ↔ e ∈ allContent
        ∧ (e.directory = d ∨ isPre (d ++ str "/") e.directory = true) := by
  unfold getContentByDirectory
  rw [if_neg hd]
  simp [List.mem_filter]

/-- Witness for C5 at a concrete content sequence: the directory blog is not
    the root sentinel, and the membership characterization holds for an
    entry living in blog/news. -/
theorem getContentByDirectory_nonroot_mem_witness :
    str "blog" ≠ str "root"
    ∧ (sampleEntry (str "blog/news") (str "/blog/news/x") []
        ∈ getContentByDirectory
            [sampleEntry (str "blog/news") (str "/blog/news/x") [],
             sampleEntry (str "blog2") (str "/blog2/y") []] (str "blog")
       ↔ sampleEntry (str "blog/news") (str "/blog/news/x") []
           ∈ [sampleEntry (str "blog/news") (str "/blog/news/x") [],
              sampleEntry (str "blog2") (str "/blog2/y") []]
         ∧ ((sampleEntry (str "blog/news") (str "/blog/news/x") []).directory
              = str "blog"
            ∨ isPre (str "blog" ++ str "/")
                (sampleEntry (str "blog/news") (str "/blog/news/x") []).directory
              = true)) :=
  ⟨by decide, getContentByDirectory_nonroot_mem _ _ (by decide) _⟩

/-- C6: outside development mode the first call scans and caches, any call
    on a warm cache returns the identical cached sequence with the state
    unchanged (in particular no scan is performed), clearing the cache
    returns it to the cold state, and the next call after clearing scans
    again. -/
theorem getAllContent_cache_behavior (scan : Nat → List ContentEntry) :
    getAllContent false scan { cachedContent := none, scansPerformed := 0 }
      = (scan 0, { cachedContent := some (scan 0), scansPerformed := 1 })
    ∧ (∀ c n,
        getAllContent false scan { cachedContent := some c, scansPerformed := n }
          = (c, { cachedContent := some c, scansPerformed := n }))
    ∧ clearContentCache { cachedContent := some (scan 0), scansPerformed := 1 }
        = { cachedContent := none, scansPerformed := 1 }
    ∧ getAllContent false scan { cachedContent := none, scansPerformed := 1 }
      = (scan 1, { cachedContent := some (scan 1), scansPerformed := 2 }) :=
  ⟨rfl, fun _ _ => rfl, rfl, rfl⟩

/-- C10: a front-matter order of zero, or any other JS-falsy order value
    such as the empty string, is treated by getSidebarTree exactly like an
    absent order field: the leaf gets the default order 999 and sorts after
    a leaf with a positive explicit order, as this evaluation shows on a
    two-entry directory (identical sidebars for order zero, empty-string
    order and no order at all, with the falsy-order leaf last). -/
theorem sidebar_falsy_order_defaults :
    getSidebarTree
        [sampleEntry (str "docs") (str "/docs/zero")
           [(str "title", JsonVal.str (str "Zero")),
            (str "order", JsonVal.num 0)],
         sampleEntry (str "docs") (str "/docs/one")
           [(str "title", JsonVal.str (str "One")),
            (str "order", JsonVal.num 1)]] (str "docs")
      = [SidebarNode.leaf
           { title := JsonVal.str (str "One"), url := str "/docs/one",
             order := JsonVal.num 1 },
         SidebarNode.leaf
           { title := JsonVal.str (str "Zero"), url := str "/docs/zero",
             order := JsonVal.num 999 }]
    ∧ getSidebarTree
        [sampleEntry (str "docs") (str "/docs/zero")
           [(str "title", JsonVal.str (str "Zero")),
            (str "order", JsonVal.str [])],
         sampleEntry (str "docs") (str "/docs/one")
           [(str "title", JsonVal.str (str "One")),
            (str "order", JsonVal.num 1)]] (str "docs")
      = getSidebarTree
          [sampleEntry (str "docs") (str "/docs/zero")
             [(str "title", JsonVal.str (str "Zero")),
              (str "order", JsonVal.num 0)],
           sampleEntry (str "docs") (str "/docs/one")
             [(str "title", JsonVal.str (str "One")),
              (str "order", JsonVal.num 1)]] (str "docs")
    ∧ getSidebarTree
        [sampleEntry (str "docs") (str "/docs/zero")
           [(str "title", JsonVal.str (str "Zero"))],
         sampleEntry (str "docs") (str "/docs/one")
           [(str "title", JsonVal.str (str "One")),
            (str "order", JsonVal.num 1)]] (str "docs")
      = getSidebarTree
          [sampleEntry (str "docs") (str "/docs/zero")
             [(str "title", JsonVal.str (str "Zero")),
              (str "order", JsonVal.num 0)],
           sampleEntry (str "docs") (str "/docs/one")
             [(str "title", JsonVal.str (str "One")),
              (str "order", JsonVal.num 1)]] (str "docs") := by
  refine ⟨by decide, by decide, by decide⟩

/-- C7 counterexample: the sidebar built for a directory with subdirectories
    beta and 2, encountered in that order, lists the group for 2 first
    (array-index keys enumerate first in JS objects), so the groups are not
    in first-encountered order as the claim states. -/
theorem getSidebarTree_group_order_counterexample :
    getSidebarTree
        [sampleEntry (str "docs/beta") (str "/docs/beta/a")
           [(str "title", JsonVal.str (str "A"))],
         sampleEntry (str "docs/2") (str "/docs/2/b")
           [(str "title", JsonVal.str (str "B"))]] (str "docs")
      ≠ sidebarFirstEncounterModel
          [sampleEntry (str "docs/beta") (str "/docs/beta/a")
             [(str "title", JsonVal.str (str "A"))],
           sampleEntry (str "docs/2") (str "/docs/2/b")
             [(str "title", JsonVal.str (str "B"))]] (str "docs") := by decide

theorem takeWhile_append_stop (s : Char) :
    ∀ (l r : Str), (∀ c ∈ l, c ≠ s) →
      (l ++ s :: r).takeWhile (fun d => d ≠ s) = l := by
  intro l
  induction l with
  | nil => intro r _; simp [List.takeWhile_cons]
  | cons c cs ih =>
    intro r h
    have hc : c ≠ s := h c (by simp)
    have ih' := ih r (fun d hd => h d (by simp [hd]))
    simp only [List.cons_append, List.takeWhile_cons, decide_not] at ih' ⊢
    simp [hc, ih']

theorem dropWhile_append_stop (s : Char) :
    ∀ (l r : Str), (∀ c ∈ l, c ≠ s) →
      (l ++ s :: r).dropWhile (fun d => d ≠ s) = s :: r := by
  intro l
  induction l with
  | nil => intro r _; simp [List.dropWhile_cons]
  | cons c cs ih =>
    intro r h
    have hc : c ≠ s := h c (by simp)
    have ih' := ih r (fun d hd => h d (by simp [hd]))
    simp only [List.cons_append, List.dropWhile_cons, decide_not] at ih' ⊢
    simp [hc, ih']

theorem substAuxF_fuel_irrel (vars : List (Str × Str)) :
    ∀ (fuel1 fuel2 : Nat) (l : Str), l.length ≤ fuel1 → l.length ≤ fuel2 →
      substAuxF vars fuel1 l = substAuxF vars fuel2 l := by
  intro fuel1
  induction fuel1 with
  | zero =>
    intro fuel2 l h1 _
    have hl : l = [] := List.length_eq_zero.mp (Nat.le_zero.mp h1)
    subst hl
    cases fuel2 <;> rfl
  | succ f ih =>
    intro fuel2 l h1 h2
    cases l with
    | nil => cases fuel2 <;> rfl
    | cons c cs =>
      cases fuel2 with
      | zero => simp at h2
      | succ g =>
        have hcs1 : cs.length ≤ f := by
          simpa [Nat.succ_le_succ_iff] using h1
        have hcs2 : cs.length ≤ g := by
          simpa [Nat.succ_le_succ_iff] using h2
        have hrest : ((cs.tail.dropWhile (fun d => d ≠ '}')).drop 2).length
            ≤ cs.length := by
          have hd := length_dropWhile_le' (fun d => decide (d ≠ '}')) cs.tail
          have ht : cs.tail.length ≤ cs.length := by
            cases cs <;> simp [List.tail]
          calc ((cs.tail.dropWhile (fun d => d ≠ '}')).drop 2).length
              ≤ (cs.tail.dropWhile (fun d => d ≠ '}')).length := by
                simp [List.length_drop]
            _ ≤ cs.tail.length := hd
            _ ≤ cs.length := ht
        simp only [substAuxF]
        by_cases hc : c = '{' ∧ cs.head? = some '{'
            ∧ cs.tail.takeWhile (fun d => d ≠ '}') ≠ []
            ∧ (cs.tail.dropWhile (fun d => d ≠ '}')).take 2 = str "\x7d\x7d"
        · rw [if_pos hc, if_pos hc]
          cases hlk : lookupStr vars (trimStr (cs.tail.takeWhile (fun d => d ≠ '}'))) with
          | some v =>
            simp only [hlk]
            rw [ih g _ (Nat.le_trans hrest hcs1) (Nat.le_trans hrest hcs2)]
          | none =>
            simp only [hlk]
            rw [ih g _ (Nat.le_trans hrest hcs1) (Nat.le_trans hrest hcs2)]
        · rw [if_neg hc, if_neg hc]
          rw [ih g cs hcs1 hcs2]

theorem str_open_braces : str "\x7b\x7b" = ['{', '{'] := rfl

theorem str_close_braces : str "\x7d\x7d" = ['}', '}'] := rfl

/-- C8: template substitution replaces a placeholder whose trimmed name is
    bound in the variable map by the bound value and leaves a placeholder
    with an unbound name verbatim, in both cases continuing after the
    placeholder; text before the placeholder (here: free of open braces) is
    emitted unchanged.  The name is any non-empty run of characters free of
    close braces, as the source regex prescribes. -/
theorem processTemplateVariables_spec_thm (vars : List (Str × Str)) :
    ∀ (pre name post : Str),
      (∀ c ∈ pre, c ≠ '{') → name ≠ [] → (∀ c ∈ name, c ≠ '}') →
      processTemplateVariables vars
          (pre ++ str "\x7b\x7b" ++ name ++ str "\x7d\x7d" ++ post)
        = pre
          ++ (match lookupStr vars (trimStr name) with
              | some v => v
              | none => str "\x7b\x7b" ++ name ++ str "\x7d\x7d")
          ++ processTemplateVariables vars post := by
  intro pre
  induction pre with
  | nil =>
    intro name post _ hname hname2
    have htw : ((name ++ '}' :: '}' :: post).takeWhile (fun d => d ≠ '}')) = name :=
      takeWhile_append_stop '}' name ('}' :: post) hname2
    have hdw : ((name ++ '}' :: '}' :: post).dropWhile (fun d => d ≠ '}'))
        = '}' :: '}' :: post :=
      dropWhile_append_stop '}' name ('}' :: post) hname2
    simp only [str_open_braces, str_close_braces, List.nil_append,
      List.cons_append, List.append_assoc]
    simp only [processTemplateVariables, List.length_cons]
    simp only [substAuxF, List.tail_cons, List.head?_cons]
    rw [if_pos (by
      refine ⟨by trivial, by trivial, ?_, ?_⟩
      · rw [htw]; exact hname
      · rw [hdw]; rfl)]
    rw [htw, hdw]
    have hdrop : (('}' :: '}' :: post).drop 2) = post := rfl
    rw [hdrop]
    have hfuel : substAuxF vars ((name ++ '}' :: '}' :: post).length + 1) post
        = processTemplateVariables vars post := by
      apply substAuxF_fuel_irrel
      · simp [List.length_append]
        omega
      · exact Nat.le_refl _
    cases hlk : lookupStr vars (trimStr name) with
    | some v => simp only [hlk, hfuel, processTemplateVariables]
    | none => simp only [hlk, hfuel, processTemplateVariables,
        List.append_assoc, List.cons_append, str_open_braces,
        str_close_braces, List.nil_append]
  | cons c pre' ih =>
    intro name post hpre hname hname2
    have hc : c ≠ '{' := hpre c (by simp)
    have ih' := ih name post (fun d hd => hpre d (by simp [hd])) hname hname2
    simp only [List.cons_append, List.append_assoc] at ih' ⊢
    simp only [processTemplateVariables, List.length_cons] at ih' ⊢
    simp only [substAuxF]
    rw [if_neg (fun h => hc h.1)]
    rw [ih']

/-- Witness for C8: with the variable site.name bound to Acme, the bound
    placeholder yields Acme and an unknown placeholder is left verbatim. -/
theorem processTemplateVariables_spec_thm_witness :
    ((∀ c ∈ ([] : Str), c ≠ '{') ∧ str "site.name" ≠ []
      ∧ (∀ c ∈ str "site.name", c ≠ '}'))
    ∧ processTemplateVariables [(str "site.name", str "Acme")]
        (str "\x7b\x7bsite.name\x7d\x7d") = str "Acme"
    ∧ processTemplateVariables [(str "site.name", str "Acme")]
        (str "\x7b\x7bunknown.key\x7d\x7d") = str "\x7b\x7bunknown.key\x7d\x7d" := by
  refine ⟨⟨by decide, by decide, by decide⟩, ?_, ?_⟩
  · have h := processTemplateVariables_spec_thm
      [(str "site.name", str "Acme")] [] (str "site.name") []
      (by decide) (by decide) (by decide)
    have e1 : (str "\x7b\x7bsite.name\x7d\x7d")
        = [] ++ str "\x7b\x7b" ++ str "site.name" ++ str "\x7d\x7d" ++ [] := by decide
    rw [e1, h]
    decide
  · have h := processTemplateVariables_spec_thm
      [(str "site.name", str "Acme")] [] (str "unknown.key") []
      (by decide) (by decide) (by decide)
    have e1 : (str "\x7b\x7bunknown.key\x7d\x7d")
        = [] ++ str "\x7b\x7b" ++ str "unknown.key" ++ str "\x7d\x7d" ++ [] := by decide
    rw [e1, h]
    decide

theorem str_h1open : str "<h1" = ['<', 'h', '1'] := rfl

theorem str_h1close : str "</h1>" = ['<', '/', 'h', '1', '>'] := rfl

theorem str_gt : str ">" = ['>'] := rfl

theorem isPre_append_left (pat : Str) :
    ∀ (a b : Str), isPre pat a = true → isPre pat (a ++ b) = true := by
  induction pat with
  | nil => intro a b _; simp [isPre]
  | cons p ps ih =>
    intro a b h
    cases a with
    | nil => simp [isPre] at h
    | cons c cs =>
      simp only [isPre, Bool.and_eq_true] at h
      simp only [List.cons_append, isPre, Bool.and_eq_true]
      exact ⟨h.1, ih cs b h.2⟩

theorem hasSub_append_left (pat : Str) :
    ∀ (a b : Str), hasSub pat a = true → hasSub pat (a ++ b) = true := by
  intro a
  induction a with
  | nil =>
    intro b h
    simp only [hasSub] at h
    cases b with
    | nil => simpa [hasSub]
    | cons c cs =>
      simp only [List.nil_append, hasSub, Bool.or_eq_true]
      exact Or.inl (isPre_append_left pat [] (c :: cs) h)
  | cons c cs ih =>
    intro b h
    simp only [hasSub, Bool.or_eq_true] at h
    simp only [List.cons_append, hasSub, Bool.or_eq_true]
    cases h with
    | inl h => exact Or.inl (by simpa using isPre_append_left pat (c :: cs) b h)
    | inr h => exact Or.inr (ih b h)

theorem hasSub_of_append_false (pat a b : Str)
    (h : hasSub pat (a ++ b) = false) : hasSub pat a = false := by
  cases hh : hasSub pat a with
  | false => rfl
  | true => rw [hasSub_append_left pat a b hh] at h; exact h.symm ▸ rfl

theorem isPre_close_mid_false (b : Str) (hb : b ≠ [])
    (hsub : hasSub (str "</h1>") b = false) (rest : Str) :
    isPre (str "</h1>") (b ++ str "</h1>" ++ rest) = false := by
  rcases b with _ | ⟨c1, _ | ⟨c2, _ | ⟨c3, _ | ⟨c4, _ | ⟨c5, b'⟩⟩⟩⟩⟩
  · exact absurd rfl hb
  · simp [str_h1close, isPre]
  · simp [str_h1close, isPre]
  · simp [str_h1close, isPre]
  · simp [str_h1close, isPre]
  · have hp : isPre (str "</h1>")
        ((c1 :: c2 :: c3 :: c4 :: c5 :: b') ++ str "</h1>" ++ rest)
        = isPre (str "</h1>") (c1 :: c2 :: c3 :: c4 :: c5 :: b') := by
      simp [str_h1close, isPre]
    rw [hp]
    cases hih : isPre (str "</h1>") (c1 :: c2 :: c3 :: c4 :: c5 :: b') with
    | false => rfl
    | true =>
      exfalso
      have : hasSub (str "</h1>") (c1 :: c2 :: c3 :: c4 :: c5 :: b') = true := by
        simp only [hasSub, Bool.or_eq_true]
        exact Or.inl hih
      rw [this] at hsub
      exact Bool.true_eq_false.mp hsub

theorem findBody_at (rest : Str) :
    ∀ (body : Str), (∀ c ∈ body, jsDotExcluded c = false) →
      hasSub (str "</h1>") body = false →
      findBody (body ++ str "</h1>" ++ rest) = some (body, rest) := by
  intro body
  induction body with
  | nil =>
    intro _ _
    simp only [List.nil_append, str_h1close, List.cons_append, List.append_assoc]
    rw [findBody]
    rw [if_pos (by simp [str_h1close, isPre])]
    simp
  | cons c body' ih =>
    intro hnl hsub
    have hc : jsDotExcluded c = false := hnl c (by simp)
    have hsub' : hasSub (str "</h1>") body' = false := by
      simp only [hasSub, Bool.or_eq_false_iff] at hsub
      exact hsub.2
    have hnotpre : isPre (str "</h1>")
        ((c :: body') ++ str "</h1>" ++ rest) = false :=
      isPre_close_mid_false (c :: body') (by simp) hsub rest
    simp only [List.cons_append, List.append_assoc] at hnotpre ⊢
    rw [findBody]
    rw [if_neg (by simp [hnotpre])]
    rw [if_neg (by simp [hc])]
    have ih' := ih (fun d hd => hnl d (by simp [hd])) hsub'
    simp only [List.append_assoc] at ih'
    rw [ih']

theorem matchH1At_none_of_not_pre (s : Str)
    (h : isPre (str "<h1") s = false) : matchH1At s = none := by
  rw [matchH1At, if_neg (by simp [h])]

theorem isPre_h1_mid_false (pre : Str) (hpre : hasSub (str "<h1") pre = false)
    (hne : pre ≠ []) (z : Str) :
    isPre (str "<h1") (pre ++ '<' :: 'h' :: '1' :: z) = false := by
  rcases pre with _ | ⟨c1, _ | ⟨c2, _ | ⟨c3, pre'⟩⟩⟩
  · exact absurd rfl hne
  · simp [str_h1open, isPre]
  · simp [str_h1open, isPre]
  · have hp : isPre (str "<h1") ((c1 :: c2 :: c3 :: pre') ++ '<' :: 'h' :: '1' :: z)
        = isPre (str "<h1") (c1 :: c2 :: c3 :: pre') := by
      simp [str_h1open, isPre]
    rw [hp]
    cases hih : isPre (str "<h1") (c1 :: c2 :: c3 :: pre') with
    | false => rfl
    | true =>
      exfalso
      have : hasSub (str "<h1") (c1 :: c2 :: c3 :: pre') = true := by
        simp only [hasSub, Bool.or_eq_true]
        exact Or.inl hih
      rw [this] at hpre
      exact Bool.true_eq_false.mp hpre

theorem matchH1At_at_element (attrs body rest : Str)
    (hattrs : ∀ c ∈ attrs, c ≠ '>')
    (hbodyNl : ∀ c ∈ body, jsDotExcluded c = false)
    (hbodySub : hasSub (str "</h1>") body = false) :
    matchH1At ('<' :: 'h' :: '1' :: (attrs ++ '>' :: (body ++ (str "</h1>" ++ rest))))
      = some rest := by
  rw [matchH1At]
  rw [if_pos (by simp [str_h1open, isPre])]
  have hdrop3 : (('<' :: 'h' :: '1' :: (attrs ++ '>' :: (body ++ (str "</h1>" ++ rest)))).drop 3)
      = attrs ++ '>' :: (body ++ (str "</h1>" ++ rest)) := rfl
  rw [hdrop3]
  rw [dropWhile_append_stop '>' attrs (body ++ (str "</h1>" ++ rest)) hattrs]
  rw [if_neg (by simp)]
  simp only [List.tail_cons]
  have hfb := findBody_at rest body hbodyNl hbodySub
  simp only [List.append_assoc] at hfb
  rw [hfb]
  rfl

theorem removeFirstH1_removes (attrs body : Str)
    (hattrs : ∀ c ∈ attrs, c ≠ '>')
    (hbodyNl : ∀ c ∈ body, jsDotExcluded c = false)
    (hbodySub : hasSub (str "</h1>") body = false) :
    ∀ (pre rest : Str), hasSub (str "<h1") pre = false →
      removeFirstH1
          (pre ++ str "<h1" ++ attrs ++ str ">" ++ body ++ str "</h1>" ++ rest)
        = pre ++ rest := by
  intro pre
  induction pre with
  | nil =>
    intro rest _
    simp only [List.nil_append, str_h1open, str_gt, List.cons_append,
      List.append_assoc, List.singleton_append]
    rw [removeFirstH1, removeFirstH1Aux]
    rw [matchH1At_at_element attrs body rest hattrs hbodyNl hbodySub]
  | cons c pre' ih =>
    intro rest hpre
    have hpre' : hasSub (str "<h1") pre' = false := by
      simp only [hasSub, Bool.or_eq_false_iff] at hpre
      exact hpre.2
    have hmid : isPre (str "<h1")
        ((c :: pre') ++ '<' :: 'h' :: '1'
          :: (attrs ++ '>' :: (body ++ str "</h1>" ++ rest))) = false :=
      isPre_h1_mid_false (c :: pre') hpre (by simp) _
    have ih' := ih rest hpre'
    simp only [List.cons_append, List.append_assoc, str_h1open, str_gt,
      List.singleton_append] at hmid ih' ⊢
    rw [removeFirstH1, removeFirstH1Aux]
    rw [matchH1At_none_of_not_pre _ (by simpa using hmid)]
    rw [removeFirstH1] at ih'
    rw [ih']

theorem removeFirstH1_id_of_no_h1 :
    ∀ (s : Str), hasSub (str "<h1") s = false → removeFirstH1 s = s := by
  intro s
  induction s with
  | nil => intro _; rfl
  | cons c cs ih =>
    intro h
    simp only [hasSub, Bool.or_eq_false_iff] at h
    rw [removeFirstH1, removeFirstH1Aux]
    rw [matchH1At_none_of_not_pre _ h.1]
    rw [removeFirstH1] at ih
    rw [ih h.2]

/-- C9: write the input as prefix, h1 element (attribute run free of close
    angles, body free of regex-dot-excluded line terminators and of close
    tags) and suffix; the containing-exactly-one-h1 reading is the
    hypothesis that the prefix and suffix together contain no further h1
    open tag.  Then stripping removes exactly the element (everything after
    it, including any later elements in an arbitrary rest, is preserved
    verbatim), and stripping is idempotent: a second application leaves the
    result unchanged. -/
theorem removeFirstH1_single_h1 (pre attrs body post : Str)
    (hpp : hasSub (str "<h1") (pre ++ post) = false)
    (hattrs : ∀ c ∈ attrs, c ≠ '>')
    (hbodyNl : ∀ c ∈ body, jsDotExcluded c = false)
    (hbodySub : hasSub (str "</h1>") body = false) :
    (∀ rest : Str,
      removeFirstH1
          (pre ++ str "<h1" ++ attrs ++ str ">" ++ body ++ str "</h1>" ++ rest)
        = pre ++ rest)
    ∧ removeFirstH1
        (removeFirstH1
          (pre ++ str "<h1" ++ attrs ++ str ">" ++ body ++ str "</h1>" ++ post))
      = removeFirstH1
          (pre ++ str "<h1" ++ attrs ++ str ">" ++ body ++ str "</h1>" ++ post) := by
  have hpre : hasSub (str "<h1") pre = false :=
    hasSub_of_append_false (str "<h1") pre post hpp
  have hrem := removeFirstH1_removes attrs body hattrs hbodyNl hbodySub
  refine ⟨fun rest => hrem pre rest hpre, ?_⟩
  rw [hrem pre post hpre]
  rw [removeFirstH1_id_of_no_h1 (pre ++ post) hpp]

/-- Witness for C9 on a concrete page: a paragraph, an attributed h1 with a
    one-line body, and a suffix containing no further h1. -/
theorem removeFirstH1_single_h1_witness :
    (hasSub (str "<h1")
        (str "<p>intro</p>" ++ str "<p>rest</p><h2>s</h2>") = false
      ∧ (∀ c ∈ str " class=x", c ≠ '>')
      ∧ (∀ c ∈ str "Title", jsDotExcluded c = false)
      ∧ hasSub (str "</h1>") (str "Title") = false)
    ∧ removeFirstH1
        (str "<p>intro</p>" ++ str "<h1" ++ str " class=x" ++ str ">"
          ++ str "Title" ++ str "</h1>" ++ str "<p>rest</p><h2>s</h2>")
      = str "<p>intro</p>" ++ str "<p>rest</p><h2>s</h2>" := by
  refine ⟨⟨by decide, by decide, by decide, by decide⟩, ?_⟩
  exact (removeFirstH1_single_h1 (str "<p>intro</p>") (str " class=x")
    (str "Title") (str "<p>rest</p><h2>s</h2>") (by decide) (by decide)
    (by decide) (by decide)).1 (str "<p>rest</p><h2>s</h2>")

theorem not_mem_seen_of_mem_firstEncounterKeys :
    ∀ (ks seen : List Str) (k : Str),
      k ∈ firstEncounterKeys ks seen → k ∉ seen := by
  intro ks
  induction ks with
  | nil => intro seen k h; simp [firstEncounterKeys] at h
  | cons k0 ks ih =>
    intro seen k h
    rw [firstEncounterKeys] at h
    by_cases h0 : k0 ∈ seen
    · rw [if_pos h0] at h
      exact ih seen k h
    · rw [if_neg h0] at h
      rcases List.mem_cons.mp h with h1 | h1
      · subst h1; exact h0
      · intro hc
        exact ih (seen ++ [k0]) k h1 (List.mem_append.mpr (Or.inl hc))

theorem mem_firstEncounterKeys_iff :
    ∀ (ks seen : List Str) (k : Str),
      k ∈ firstEncounterKeys ks seen ↔ k ∈ ks ∧ k ∉ seen := by
  intro ks
  induction ks with
  | nil => intro seen k; simp [firstEncounterKeys]
  | cons k0 ks ih =>
    intro seen k
    rw [firstEncounterKeys]
    by_cases h0 : k0 ∈ seen
    · rw [if_pos h0, ih]
      constructor
      · rintro ⟨h1, h2⟩
        exact ⟨List.mem_cons.mpr (Or.inr h1), h2⟩
      · rintro ⟨h1, h2⟩
        rcases List.mem_cons.mp h1 with h3 | h3
        · subst h3; exact absurd h0 h2
        · exact ⟨h3, h2⟩
    · rw [if_neg h0]
      constructor
      · intro h1
        rcases List.mem_cons.mp h1 with h3 | h3
        · subst h3; exact ⟨List.mem_cons.mpr (Or.inl rfl), h0⟩
        · have := (ih (seen ++ [k0]) k).mp h3
          refine ⟨List.mem_cons.mpr (Or.inr this.1), fun hc => this.2 ?_⟩
          exact List.mem_append.mpr (Or.inl hc)
      · rintro ⟨h1, h2⟩
        rcases List.mem_cons.mp h1 with h3 | h3
        · subst h3; exact List.mem_cons.mpr (Or.inl rfl)
        · by_cases hk0 : k = k0
          · subst hk0; exact List.mem_cons.mpr (Or.inl rfl)
          · refine List.mem_cons.mpr (Or.inr ((ih (seen ++ [k0]) k).mpr ⟨h3, ?_⟩))
            intro hc
            rcases List.mem_append.mp hc with hc1 | hc1
            · exact h2 hc1
            · exact hk0 (List.mem_singleton.mp hc1)

theorem addToGroups_mem (directory : Str) (gs : List (Str × SGroup))
    (e : ContentEntry)
    (hk : gs.any (fun p => p.1 = groupKeyOf directory e) = true) :
    addToGroups directory gs e
      = gs.map (fun p =>
          if p.1 = groupKeyOf directory e then
            (p.1, { title := p.2.title, items := p.2.items ++ [sidebarItemOf e] })
          else p) := by
  simp only [addToGroups]
  rw [if_pos hk]

theorem addToGroups_not_mem (directory : Str) (gs : List (Str × SGroup))
    (e : ContentEntry)
    (hk : gs.any (fun p => p.1 = groupKeyOf directory e) = false) :
    addToGroups directory gs e
      = gs ++ [(groupKeyOf directory e,
          { title := groupTitleOf directory (groupKeyOf directory e),
            items := [sidebarItemOf e] })] := by
  have hne : ∀ p ∈ gs, ¬ (p.1 = groupKeyOf directory e) := by
    intro p hp
    intro hc
    have : gs.any (fun p => p.1 = groupKeyOf directory e) = true :=
      List.any_eq_true.mpr ⟨p, hp, by simp [hc]⟩
    rw [this] at hk
    exact Bool.true_eq_false.mp hk
  simp only [addToGroups]
  rw [if_neg (by simp [hk])]
  rw [List.map_append]
  congr 1
  · conv_rhs => rw [← List.map_id gs]
    apply List.map_congr_left
    intro p hp
    rw [if_neg (hne p hp)]
    rfl
  · simp

theorem firstEncounterKeys_cons (k : Str) (ks seen : List Str) :
    firstEncounterKeys (k :: ks) seen
      = if k ∈ seen then firstEncounterKeys ks seen
        else k :: firstEncounterKeys ks (seen ++ [k]) := rfl

theorem foldl_addToGroups_shape (directory : Str) :
    ∀ (dc : List ContentEntry) (gs : List (Str × SGroup)),
      dc.foldl (addToGroups directory) gs
        = gs.map (fun p => (p.1,
            { title := p.2.title,
              items := p.2.items
                ++ (dc.filter (fun e => groupKeyOf directory e = p.1)).map
                    sidebarItemOf }))
          ++ (firstEncounterKeys (dc.map (groupKeyOf directory))
                (gs.map (fun p => p.1))).map
              (fun k => (k,
                { title := groupTitleOf directory k,
                  items := (dc.filter (fun e => groupKeyOf directory e = k)).map
                    sidebarItemOf })) := by
  intro dc
  induction dc with
  | nil =>
    intro gs
    simp only [List.foldl_nil, List.map_nil, firstEncounterKeys,
      List.filter_nil, List.append_nil]
    conv_lhs => rw [← List.map_id gs]
    apply List.map_congr_left
    intro p _
    simp
  | cons e rest ih =>
    intro gs
    rw [List.foldl_cons]
    by_cases hk : gs.any (fun p => p.1 = groupKeyOf directory e) = true
    · -- the grouping key of e is already present
      have hmem : groupKeyOf directory e ∈ gs.map (fun p => p.1) := by
        rcases List.any_eq_true.mp hk with ⟨p, hp, hpe⟩
        simp only [decide_eq_true_eq] at hpe
        exact hpe ▸ List.mem_map_of_mem (fun p => p.1) hp
      rw [addToGroups_mem directory gs e hk, ih]
      have hkeys : ((gs.map (fun p =>
          if p.1 = groupKeyOf directory e then
            (p.1, SGroup.mk p.2.title (p.2.items ++ [sidebarItemOf e]))
          else p)).map (fun p => p.1)) = gs.map (fun p => p.1) := by
        rw [List.map_map]
        apply List.map_congr_left
        intro p _
        by_cases hp : p.1 = groupKeyOf directory e <;> simp [hp]
      rw [hkeys]
      congr 1
      · rw [List.map_map]
        apply List.map_congr_left
        intro p _
        by_cases hp : p.1 = groupKeyOf directory e
        · simp only [Function.comp_apply, if_pos hp]
          rw [List.filter_cons_of_pos (by simp [hp]), List.map_cons]
          simp [List.append_assoc]
        · simp only [Function.comp_apply, if_neg hp]
          rw [List.filter_cons_of_neg (by simp; intro hc; exact hp hc.symm)]
      · rw [List.map_cons, firstEncounterKeys_cons, if_pos hmem]
        apply List.map_congr_left
        intro k' hk'
        have hne : k' ≠ groupKeyOf directory e := by
          intro hc
          exact not_mem_seen_of_mem_firstEncounterKeys _ _ _ hk' (hc ▸ hmem)
        rw [List.filter_cons_of_neg (by simp; intro hc; exact hne hc.symm)]
    · -- the grouping key of e is new
      have hk' : gs.any (fun p => p.1 = groupKeyOf directory e) = false :=
        Bool.not_eq_true _ ▸ Bool.of_not_eq_true hk
      have hne : ∀ p ∈ gs, ¬ (p.1 = groupKeyOf directory e) := by
        intro p hp hc
        exact hk (List.any_eq_true.mpr ⟨p, hp, by simp [hc]⟩)
      have hnmem : groupKeyOf directory e ∉ gs.map (fun p => p.1) := by
        intro hc
        rcases List.mem_map.mp hc with ⟨p, hp, hpe⟩
        exact hne p hp hpe
      rw [addToGroups_not_mem directory gs e hk', ih]
      have hmc : List.map (groupKeyOf directory) (e :: rest)
          = groupKeyOf directory e :: List.map (groupKeyOf directory) rest := rfl
      rw [hmc, firstEncounterKeys_cons, if_neg hnmem]
      have h1 : (gs.map (fun p => (p.1,
          SGroup.mk p.2.title (p.2.items
            ++ (rest.filter (fun e2 => groupKeyOf directory e2 = p.1)).map
                sidebarItemOf))))
          = gs.map (fun p => (p.1,
            SGroup.mk p.2.title (p.2.items
              ++ ((e :: rest).filter (fun e2 => groupKeyOf directory e2 = p.1)).map
                  sidebarItemOf))) := by
        apply List.map_congr_left
        intro p hp
        rw [List.filter_cons_of_neg (by simp; intro hc; exact hne p hp hc.symm)]
      have h3 : ((firstEncounterKeys (rest.map (groupKeyOf directory))
            ((gs.map (fun p => p.1)) ++ [groupKeyOf directory e])).map
            (fun k => (k, SGroup.mk (groupTitleOf directory k)
              ((rest.filter (fun e2 => groupKeyOf directory e2 = k)).map
                sidebarItemOf))))
          = ((firstEncounterKeys (rest.map (groupKeyOf directory))
              ((gs.map (fun p => p.1)) ++ [groupKeyOf directory e])).map
              (fun k => (k, SGroup.mk (groupTitleOf directory k)
                (((e :: rest).filter (fun e2 => groupKeyOf directory e2 = k)).map
                  sidebarItemOf)))) := by
        apply List.map_congr_left
        intro k' hk2
        have hn2 : k' ∉ (gs.map (fun p => p.1)) ++ [groupKeyOf directory e] :=
          not_mem_seen_of_mem_firstEncounterKeys _ _ _ hk2
        have hne2 : k' ≠ groupKeyOf directory e := by
          intro hc
          exact hn2 (List.mem_append.mpr (Or.inr (by simp [hc])))
        rw [List.filter_cons_of_neg (by simp; intro hc; exact hne2 hc.symm)]
      simp only [List.map_append, List.map_cons, List.map_nil, List.append_assoc,
        List.cons_append, List.nil_append, List.singleton_append]
      rw [← h1, ← h3]
      rw [List.filter_cons_of_pos (by simp)]
      simp

theorem find?_eq_key (r : Str) :
    ∀ (K : List Str),
      K.find? (fun k => k = r) = if r ∈ K then some r else none := by
  intro K
  induction K with
  | nil => simp
  | cons k ks ih =>
    by_cases hk : k = r
    · subst hk
      simp [List.find?_cons]
    · simp only [List.find?_cons, decide_eq_false hk]
      rw [ih]
      have hmem : (r ∈ k :: ks) ↔ (r ∈ ks) := by
        constructor
        · intro h
          rcases List.mem_cons.mp h with h1 | h1
          · exact absurd h1.symm hk
          · exact h1
        · exact fun h => List.mem_cons.mpr (Or.inr h)
      by_cases hr : r ∈ ks
      · rw [if_pos hr, if_pos (hmem.mpr hr)]
      · rw [if_neg hr, if_neg (fun hc => hr (hmem.mp hc))]

theorem filter_fst_map {α : Type} (g : Str → α) (q : Str → Bool) :
    ∀ (K : List Str),
      ((K.map (fun k => (k, g k))).filter (fun p => q p.1))
        = (K.filter q).map (fun k => (k, g k)) := by
  intro K
  induction K with
  | nil => rfl
  | cons k ks ih =>
    simp only [List.map_cons, List.filter_cons]
    by_cases hq : q k = true <;> simp [hq, ih]

theorem insertByKey_map {α β : Type} (κ : β → Int) (f : α → β) (x : α) :
    ∀ (l : List α),
      insertByKey κ (f x) (l.map f) = (insertByKey (fun a => κ (f a)) x l).map f := by
  intro l
  induction l with
  | nil => rfl
  | cons y ys ih =>
    simp only [List.map_cons, insertByKey]
    by_cases h : κ (f y) < κ (f x) <;> simp [h, ih]

theorem sortByKey_map {α β : Type} (κ : β → Int) (f : α → β) :
    ∀ (l : List α),
      sortByKey κ (l.map f) = (sortByKey (fun a => κ (f a)) l).map f := by
  intro l
  induction l with
  | nil => rfl
  | cons y ys ih =>
    simp only [List.map_cons, sortByKey, ih]
    exact insertByKey_map κ f y (sortByKey (fun a => κ (f a)) ys)

theorem mem_insertByKey {α : Type} (κ : α → Int) (x y : α) :
    ∀ (l : List α), y ∈ insertByKey κ x l ↔ y = x ∨ y ∈ l := by
  intro l
  induction l with
  | nil => simp [insertByKey]
  | cons z zs ih =>
    simp only [insertByKey]
    by_cases h : κ z < κ x
    · rw [if_pos h]
      simp only [List.mem_cons, ih]
      tauto
    · rw [if_neg h]
      simp only [List.mem_cons]

theorem mem_sortByKey {α : Type} (κ : α → Int) (y : α) :
    ∀ (l : List α), y ∈ sortByKey κ l ↔ y ∈ l := by
  intro l
  induction l with
  | nil => simp [sortByKey]
  | cons z zs ih =>
    simp [sortByKey, mem_insertByKey, ih]

theorem groupsPart_eq (directory : Str) (dc : List ContentEntry) :
    (jsEntries (((firstEncounterKeys (dc.map (groupKeyOf directory)) []).map
        (fun k => (k, SGroup.mk (groupTitleOf directory k)
          (sortItems ((dc.filter (fun e => groupKeyOf directory e = k)).map
            sidebarItemOf))))).filter (fun p => p.1 ≠ str "_root"))).map
      (fun p => SidebarNode.group p.2.title p.2.items)
    = (sortByKey keyIntOf
        (((firstEncounterKeys (dc.map (groupKeyOf directory)) []).filter
          (fun k => k ≠ str "_root")).filter isArrayIndexKey)
        ++ ((firstEncounterKeys (dc.map (groupKeyOf directory)) []).filter
          (fun k => k ≠ str "_root")).filter (fun k => !isArrayIndexKey k)).map
      (fun k => SidebarNode.group (formatTitle k)
        (sortItems ((dc.filter (fun e => groupKeyOf directory e = k)).map
          sidebarItemOf))) := by
  rw [filter_fst_map
    (fun k => SGroup.mk (groupTitleOf directory k)
      (sortItems ((dc.filter (fun e => groupKeyOf directory e = k)).map
        sidebarItemOf)))
    (fun s => decide (s ≠ str "_root"))
    (firstEncounterKeys (dc.map (groupKeyOf directory)) [])]
  simp only [jsEntries]
  rw [filter_fst_map
    (fun k => SGroup.mk (groupTitleOf directory k)
      (sortItems ((dc.filter (fun e => groupKeyOf directory e = k)).map
        sidebarItemOf)))
    isArrayIndexKey]
  rw [filter_fst_map
    (fun k => SGroup.mk (groupTitleOf directory k)
      (sortItems ((dc.filter (fun e => groupKeyOf directory e = k)).map
        sidebarItemOf)))
    (fun s => !isArrayIndexKey s)]
  rw [sortByKey_map (fun p => keyIntOf p.1)
    (fun k => (k, SGroup.mk (groupTitleOf directory k)
      (sortItems ((dc.filter (fun e => groupKeyOf directory e = k)).map
        sidebarItemOf))))]
  rw [← List.map_append, List.map_map]
  apply List.map_congr_left
  intro k hk
  have hk' : ¬ (k = str "_root") := by
    rcases List.mem_append.mp hk with h1 | h1
    · have h2 := (mem_sortByKey _ _ _).mp h1
      have h3 := (List.mem_filter.mp h2).1
      have h4 := (List.mem_filter.mp h3).2
      simpa using h4
    · have h3 := (List.mem_filter.mp h1).1
      have h4 := (List.mem_filter.mp h3).2
      simpa using h4
  dsimp only [Function.comp]
  rw [groupTitleOf, if_neg hk']

/-- C7, amended: the sidebar built for a directory consists of the leaves
    for entries directly in the directory first, stably sorted ascending by
    their order value (default 999), followed by the group nodes with their
    children sorted the same way; the groups appear in JS object-enumeration
    order (array-index subdirectory names first, ascending numerically, then
    the remaining names in first-encountered order), as captured by the
    specification-side description sidebarSpecJS, which getSidebarTree
    equals on every content sequence and directory. -/
theorem getSidebarTree_eq_spec (allContent : List ContentEntry)
    (directory : Str) :
    getSidebarTree allContent directory = sidebarSpecJS allContent directory := by
  simp only [getSidebarTree, sidebarSpecJS]
  rw [foldl_addToGroups_shape directory
    (allContent.filter (fun e =>
      e.directory = directory || isPre (directory ++ str "/") e.directory)) []]
  simp only [List.map_nil, List.nil_append, List.append_nil, List.map_map]
  have hcomp : ((fun p => ((p : Str × SGroup).1,
        SGroup.mk p.2.title (sortItems p.2.items)))
      ∘ (fun k => (k, SGroup.mk (groupTitleOf directory k)
        (((allContent.filter (fun e =>
            e.directory = directory
              || isPre (directory ++ str "/") e.directory)).filter
          (fun e => groupKeyOf directory e = k)).map sidebarItemOf))))
      = (fun k => (k, SGroup.mk (groupTitleOf directory k)
        (sortItems (((allContent.filter (fun e =>
            e.directory = directory
              || isPre (directory ++ str "/") e.directory)).filter
          (fun e => groupKeyOf directory e = k)).map sidebarItemOf)))) := rfl
  rw [hcomp]
  rw [List.find?_map]
  have hpred : ((fun p => decide ((p : Str × SGroup).1 = str "_root"))
      ∘ (fun k => (k, SGroup.mk (groupTitleOf directory k)
        (sortItems (((allContent.filter (fun e =>
            e.directory = directory
              || isPre (directory ++ str "/") e.directory)).filter
          (fun e => groupKeyOf directory e = k)).map sidebarItemOf)))))
      = (fun k => decide (k = str "_root")) := rfl
  rw [hpred, find?_eq_key]
  rw [groupsPart_eq directory
    (allContent.filter (fun e =>
      e.directory = directory || isPre (directory ++ str "/") e.directory))]
  by_cases hroot : str "_root" ∈ firstEncounterKeys
      ((allContent.filter (fun e =>
        e.directory = directory
          || isPre (directory ++ str "/") e.directory)).map
        (groupKeyOf directory)) []
  · rw [if_pos hroot]
    simp only [Option.map_some']
  · rw [if_neg hroot]
    simp only [Option.map_none']
    have hfil : (allContent.filter (fun e =>
        e.directory = directory
          || isPre (directory ++ str "/") e.directory)).filter
        (fun e => groupKeyOf directory e = str "_root") = [] := by
      rw [List.filter_eq_nil_iff]
      intro e he
      simp only [decide_eq_true_eq]
      intro hc
      apply hroot
      rw [mem_firstEncounterKeys_iff]
      refine ⟨?_, by simp⟩
      rw [← hc]
      exact List.mem_map_of_mem _ he
    rw [hfil]
    rfl
